import Mathlib

/-!
Verification of the quantitative analytics engine of the crypto-market-analysis
repository against its specification.

The numerical routines of `backend/services/analyzer.py` and the rebalancing
endpoint of `backend/api/routes/portfolio.py` are embedded shallowly:
Python floats (resp. `Decimal`) are modelled by exact rationals `ℚ`, real
transcendental functions (`np.log`, `sqrt`) by their counterparts on `ℝ`, and
IEEE `NaN` values by `Option.none` where a claim depends on them.  Comments on
each definition record the Python source it translates.
-/

/-! ## PerformanceAnalyzer (backend/services/analyzer.py) -/

/-- `PerformanceAnalyzer.calculate_returns` (analyzer.py lines 21-34):
the loop `for i in range(1, len(prices))` appends `(prices[i]-prices[i-1])/prices[i-1]`
when `prices[i-1] != 0` and `0` otherwise; `[]` when `len(prices) < 2`.
The loop index is shifted by one: entry `i` of the result reads positions
`i` and `i+1` of the input. -/
def calculate_returns (prices : List ℚ) : List ℚ :=
  if prices.length < 2 then []
  else
    (List.range (prices.length - 1)).map fun i =>
      if prices.getD i 0 ≠ 0 then (prices.getD (i + 1) 0 - prices.getD i 0) / prices.getD i 0
      else 0

/-- `PerformanceAnalyzer.calculate_total_return` (analyzer.py lines 43-48):
`(prices[-1] - prices[0]) / prices[0] * 100`, and `0.0` when `len(prices) < 2`
or `prices[0] == 0`. -/
def calculate_total_return (prices : List ℚ) : ℚ :=
  if prices.length < 2 ∨ prices.headD 0 = 0 then 0
  else (prices.getLastD 0 - prices.headD 0) / prices.headD 0 * 100

/-- `PerformanceAnalyzer.calculate_log_returns` (analyzer.py lines 36-41):
`[np.log(prices[i] / prices[i-1]) for i in range(1, len(prices)) if prices[i-1] > 0]`,
and `[]` when `len(prices) < 2`.  A Python list comprehension with a filter is a
`filter` followed by a `map`; the index is shifted by one as in `calculate_returns`.
Noncomputable only because `Real.log` is; the selection of entries is decidable. -/
noncomputable def calculate_log_returns (prices : List ℚ) : List ℝ :=
  if prices.length < 2 then []
  else
    ((List.range (prices.length - 1)).filter fun i => 0 < prices.getD i 0).map fun i =>
      Real.log ((prices.getD (i + 1) 0 : ℝ) / (prices.getD i 0 : ℝ))

/-- One iteration of the loop in `PerformanceAnalyzer.calculate_max_drawdown`
(analyzer.py lines 108-114): the state is the pair `(peak, max_dd)`; the peak is
raised to `price` when `price > peak`, then `drawdown = (peak - price) / peak`
replaces `max_dd` when larger. -/
def ddStep (st : ℚ × ℚ) (price : ℚ) : ℚ × ℚ :=
  let peak := if price > st.1 then price else st.1
  let drawdown := (peak - price) / peak
  (peak, if drawdown > st.2 then drawdown else st.2)

/-- `PerformanceAnalyzer.calculate_max_drawdown` (analyzer.py lines 100-116):
fold `ddStep` over `prices[1:]` starting from `(prices[0], 0.0)` and scale the
resulting maximal drawdown by 100; `0.0` when `len(prices) < 2`. -/
def calculate_max_drawdown (prices : List ℚ) : ℚ :=
  if prices.length < 2 then 0
  else (prices.tail.foldl ddStep (prices.headD 0, 0)).2 * 100

/-! ## Claim C8: beta -/

/-- `np.mean`: the arithmetic mean of a list (0 for the empty list, which the
guarded callers never hit). -/
def sampleMean (xs : List ℚ) : ℚ := xs.sum / (xs.length : ℚ)

/-- `np.var(xs, ddof=1)`: sample variance with denominator `n - 1`. -/
def sampleVar (xs : List ℚ) : ℚ :=
  (xs.map (fun x => (x - sampleMean xs) ^ 2)).sum / ((xs.length : ℚ) - 1)

/-- `np.cov(xs, ys)[0, 1]`: sample covariance with denominator `n - 1`,
read off the off-diagonal entry of the 2×2 covariance matrix. -/
def sampleCov (xs ys : List ℚ) : ℚ :=
  ((xs.zip ys).map (fun p => (p.1 - sampleMean xs) * (p.2 - sampleMean ys))).sum /
    ((xs.length : ℚ) - 1)

/-- `RiskAnalyzer.calculate_beta` (analyzer.py lines 631-647): default `1.0`
when the series lengths differ or are shorter than 2, or when the market
variance is 0; otherwise covariance over market variance. -/
def calculate_beta (asset_returns market_returns : List ℚ) : ℚ :=
  if asset_returns.length ≠ market_returns.length ∨ asset_returns.length < 2 then 1
  else if sampleVar market_returns = 0 then 1
  else sampleCov asset_returns market_returns / sampleVar market_returns

/-! ## Claim C5: RSI when the average loss vanishes

`TechnicalAnalyzer.calculate_rsi` (analyzer.py lines 266-294) works on the
`close` column of the OHLCV frame.  The embedding models the *current* RSI
value (`rsi.iloc[-1]`) and the derived signal; IEEE special values are made
explicit: `avg_gain / avg_loss` is `+inf` when `avg_loss = 0 < avg_gain`
(so `rsi = 100 - 100/(1+inf) = 100` exactly), and `NaN` when both averages
are 0 (`0.0/0.0`), modelled as `none`. -/

/-- `delta = close.diff(); gain = delta.where(delta > 0, 0)`.  The first
diff is `NaN`, and `NaN > 0` is false, so `where` maps it to 0. -/
def rsiGains (closes : List ℚ) : List ℚ :=
  (List.range closes.length).map fun i =>
    if i = 0 then 0
    else
      if 0 < closes.getD i 0 - closes.getD (i - 1) 0 then
        closes.getD i 0 - closes.getD (i - 1) 0
      else 0

/-- `loss = -delta.where(delta < 0, 0)`: the negated negative diffs, with the
leading `NaN` mapped to 0 as in `rsiGains`. -/
def rsiLosses (closes : List ℚ) : List ℚ :=
  (List.range closes.length).map fun i =>
    if i = 0 then 0
    else
      if closes.getD i 0 - closes.getD (i - 1) 0 < 0 then
        -(closes.getD i 0 - closes.getD (i - 1) 0)
      else 0

/-- Last entry of `xs.rolling(window=period).mean()`: defined (`some`) exactly
when at least `period` observations exist, in which case it is the mean of the
final `period` entries; `none` models the `NaN` produced otherwise. -/
def lastRollingMean (period : ℕ) (xs : List ℚ) : Option ℚ :=
  if xs.length < period then none
  else some ((xs.drop (xs.length - period)).sum / (period : ℚ))

/-- `TechnicalAnalyzer.calculate_rsi`: the pair `(current_value, signal)` of
the returned dict.  `current_rsi` is 50 when the rsi series is empty (empty
close series); otherwise `rsi.iloc[-1] = 100 - 100/(1 + avg_gain/avg_loss)`
with the IEEE conventions spelled out above.  The signal comparisons
`current_rsi > 70` / `current_rsi < 30` are both false on `NaN`, giving
`"neutral"`. -/
def calculate_rsi (closes : List ℚ) (period : ℕ) : Option ℚ × String :=
  let current : Option ℚ :=
    if closes.isEmpty then some 50
    else
      match lastRollingMean period (rsiGains closes),
          lastRollingMean period (rsiLosses closes) with
      | some g, some l =>
        if l = 0 then (if g = 0 then none else some 100)
        else some (100 - 100 / (1 + g / l))
      | _, _ => none
  let signal : String :=
    match current with
    | some v => if v > 70 then "overbought" else if v < 30 then "oversold" else "neutral"
    | none => "neutral"
  (current, signal)

/-! ## Claim C10: the CVaR tail is never empty -/

/-- `np.percentile(xs, q)` with numpy's default linear interpolation: on the
ascending sort `s` of the data, with `h = (n - 1) * q / 100`, the result is
`s[⌊h⌋] + (h - ⌊h⌋) * (s[⌊h⌋ + 1] - s[⌊h⌋])`; the upper index falls out of
range only when the fractional part is 0, in which case the second summand
vanishes (modelled by defaulting the out-of-range read to `s[⌊h⌋]`). -/
def percentile (xs : List ℚ) (q : ℚ) : ℚ :=
  let s := xs.insertionSort (fun x y => x ≤ y)
  let h : ℚ := ((xs.length : ℚ) - 1) * q / 100
  let lo : ℕ := (Int.toNat ⌊h⌋)
  let a := s.getD lo 0
  let b := s.getD (lo + 1) a
  a + (h - (lo : ℚ)) * (b - a)

/-- `PerformanceAnalyzer.calculate_var` (analyzer.py lines 131-136):
`np.percentile(returns, (1 - confidence_level) * 100) * 100`, and `0.0` when
`len(returns) < 2`. -/
def calculate_var (returns : List ℚ) (confidence_level : ℚ) : ℚ :=
  if returns.length < 2 then 0
  else percentile returns ((1 - confidence_level) * 100) * 100

/-- `PerformanceAnalyzer.calculate_cvar` (analyzer.py lines 138-149):
mean of the returns at or below the VaR threshold, times 100; `0.0` when
`len(returns) < 2` or when the tail list is empty. -/
def calculate_cvar (returns : List ℚ) (confidence_level : ℚ) : ℚ :=
  if returns.length < 2 then 0
  else
    let tail_returns := returns.filter fun r => r ≤ calculate_var returns confidence_level / 100
    if tail_returns = [] then 0
    else tail_returns.sum / (tail_returns.length : ℚ) * 100

/-! ## Claim C4: rebalancing dead band (backend/api/routes/portfolio.py)

`rebalance_portfolio` (portfolio.py lines 178-259).  `Decimal` arithmetic is
exact and is modelled by `ℚ`.  The collector's quote map is an association
list `prices`; a symbol absent from it models both "symbol not fetched" and
"quote object is `None`" (the code treats them identically).  The theorems
assume distinct position symbols and distinct target keys, under which
first-match association-list lookup agrees with Python dict construction. -/

/-- A position of the rebalancing request (`PortfolioPosition`): symbol,
quantity, average cost. -/
structure Position where
  symbol : String
  quantity : ℚ
  avg_cost : ℚ

/-- One generated trade (portfolio.py lines 232-240).  The two reporting
fields `current_allocation` / `target_allocation` of the Python dict are
omitted: no claim mentions them. -/
structure Trade where
  symbol : String
  action : String
  quantity : ℚ
  value : ℚ
  price : ℚ

/-- Value of one position (portfolio.py lines 192-203): `quantity * price`
when a quote is available, else `quantity * avg_cost`. -/
def positionValue (prices : List (String × ℚ)) (p : Position) : ℚ :=
  match prices.lookup p.symbol with
  | some pr => p.quantity * pr
  | none => p.quantity * p.avg_cost

/-- `total_value`: sum of all position values (accumulated over the loop). -/
def totalValue (positions : List Position) (prices : List (String × ℚ)) : ℚ :=
  (positions.map (positionValue prices)).sum

/-- `current_values.get(symbol, Decimal('0'))` (portfolio.py line 220). -/
def currentValueOf (positions : List Position) (prices : List (String × ℚ))
    (s : String) : ℚ :=
  ((positions.map fun p => (p.symbol, positionValue prices p)).lookup s).getD 0

/-- `target_values.get(symbol, Decimal('0'))` where
`target_values[symbol] = total_value * (allocation / 100)`
(portfolio.py lines 212-215 and 221); for a symbol outside the target keys
the allocation reads as 0 and the default `Decimal('0')` coincides with
`total_value * (0 / 100)`. -/
def targetValueOf (positions : List Position) (targets : List (String × ℚ))
    (prices : List (String × ℚ)) (s : String) : ℚ :=
  totalValue positions prices * ((targets.lookup s).getD 0 / 100)

/-- `set(list(current_values.keys()) + list(target_values.keys()))`
(portfolio.py line 219), as a deduplicated list; the claims below only
concern membership, never the set's iteration order. -/
def rebalanceSymbols (positions : List Position) (targets : List (String × ℚ)) :
    List String :=
  (positions.map Position.symbol ++ targets.map Prod.fst).dedup

/-- The trade-generation loop (portfolio.py lines 218-240): a trade is
appended only when `abs(difference) > total_value * Decimal('0.01')` AND the
symbol has an available, positive current price (`if current_price and
current_price > 0`: a missing quote is the falsy `None` and is modelled by
defaulting the lookup to 0, which the positivity test likewise rejects;
a zero or negative quote is also skipped). -/
def rebalancingTrades (positions : List Position) (targets : List (String × ℚ))
    (prices : List (String × ℚ)) : List Trade :=
  (rebalanceSymbols positions targets).filterMap fun s =>
    if |targetValueOf positions targets prices s - currentValueOf positions prices s| >
          totalValue positions prices * (1 / 100) ∧
        0 < (prices.lookup s).getD 0 then
      some ⟨s,
        if 0 < targetValueOf positions targets prices s -
            currentValueOf positions prices s then "buy" else "sell",
        |(targetValueOf positions targets prices s -
            currentValueOf positions prices s) / (prices.lookup s).getD 0|,
        |targetValueOf positions targets prices s -
            currentValueOf positions prices s|,
        (prices.lookup s).getD 0⟩
    else none

/-! ## Claims C3 and C9: correlation matrix (`CorrelationAnalyzer`)

`calculate_correlation_matrix` (analyzer.py lines 494-537) builds a DataFrame
from the per-symbol price lists (pandas requires equal lengths), takes
`pct_change().dropna()` (dropping the all-`NaN` first row; with the nonzero
prices assumed by the theorems no other row drops) and computes the pairwise
Pearson matrix with pandas `nancorr`: entry = `covxy / sqrt(sumxx * sumyy)`
over deviation sums, and `NaN` when the divisor is 0.  The diagonal goes
through the same formula, so a zero-variance column yields `NaN` even on the
diagonal.  `NaN` entries are modelled as `none`; only the
`correlation_matrix` component of the returned dict is embedded, as the list
of `((symbol, symbol), entry)` pairs. -/

/-- Mean of a column.  pandas `nancorr` subtracts `sumx/nobs`; the `1/(n-1)`
normalisations of covariance and standard deviation cancel in the ratio, so
plain deviation sums suffice. -/
def colMean (xs : List ℚ) : ℚ := xs.sum / (xs.length : ℚ)

/-- Sum of squared deviations (`sumxx` / `sumyy` in pandas `nancorr`). -/
def devSq (xs : List ℚ) : ℚ := (xs.map fun x => (x - colMean xs) ^ 2).sum

/-- Sum of products of deviations over aligned rows (`covxy`). -/
def devProd (xs ys : List ℚ) : ℚ :=
  ((xs.zip ys).map fun p => (p.1 - colMean xs) * (p.2 - colMean ys)).sum

/-- One Pearson entry of `returns_df.corr()`: `covxy / sqrt(sumxx * sumyy)`,
`NaN` (= `none`) when the divisor vanishes. -/
noncomputable def corrEntry (xs ys : List ℚ) : Option ℝ :=
  if devSq xs = 0 ∨ devSq ys = 0 then none
  else some ((devProd xs ys : ℝ) / Real.sqrt ((devSq xs : ℝ) * (devSq ys : ℝ)))

/-- One column of `df.pct_change()` after `dropna` has removed the first,
all-`NaN` row: `(p_(i+1) - p_i) / p_i` for the `len - 1` consecutive pairs. -/
def pctChangeCol (p : List ℚ) : List ℚ :=
  (List.range (p.length - 1)).map fun i => (p.getD (i + 1) 0 - p.getD i 0) / p.getD i 0

/-- `CorrelationAnalyzer.calculate_correlation_matrix`: empty result (`{}`)
when fewer than 2 symbols are supplied or when the aligned return frame is
empty (with equal-length columns, `returns_df.empty` iff every column's
return list is empty); otherwise all ordered pairs of columns with their
Pearson entries. -/
noncomputable def calculate_correlation_matrix (price_data : List (String × List ℚ)) :
    List ((String × String) × Option ℝ) :=
  if price_data.length < 2 then []
  else if price_data.all fun c => (pctChangeCol c.2).isEmpty then []
  else
    (price_data.map fun c1 =>
      price_data.map fun c2 =>
        ((c1.1, c2.1), corrEntry (pctChangeCol c1.2) (pctChangeCol c2.2))).join

/-! ## Theorems for claims C1 and C2 -/

theorem calculate_returns_nil : calculate_returns [] = [] := by
  simp [calculate_returns]

theorem getD_map_range (n : ℕ) (f : ℕ → ℚ) (i : ℕ) (hi : i < n) :
    ((List.range n).map f).getD i 0 = f i := by
  have h' : i < ((List.range n).map f).length := by simpa using hi
  rw [List.getD_eq_getElem _ _ h']
  simp

theorem calculate_returns_cons_cons (a b : ℚ) (t : List ℚ) :
    calculate_returns (a :: b :: t) =
      (if a ≠ 0 then (b - a) / a else 0) :: calculate_returns (b :: t) := by
  rw [calculate_returns, calculate_returns]
  by_cases ht : (b :: t).length < 2
  · have ht0 : t = [] := by
      cases t with
      | nil => rfl
      | cons c t => simp only [List.length_cons] at ht; omega
    subst ht0
    rw [if_neg (by simp), if_pos ht]
    simp [List.range_succ]
  · rw [if_neg (by simp only [List.length_cons]; omega), if_neg ht]
    have h1 : (a :: b :: t).length - 1 = t.length + 1 := by simp
    have h2 : (b :: t).length - 1 = t.length := by simp
    rw [h1, h2, List.range_succ_eq_map, List.map_cons, List.map_map]
    simp only [List.cons.injEq]
    constructor
    · simp
    · refine List.map_congr_left fun i hi => ?_
      simp [Function.comp, List.getD_cons_succ]

/-- **C1**: for every price list `P`, `calculate_returns P` has length
`len P - 1` (hence is empty when `len P < 2`), and its `i`-th entry equals
`(P_(i+1) - P_i) / P_i` when `P_i ≠ 0` and `0` when `P_i = 0`. -/
theorem calculate_returns_spec (P : List ℚ) :
    (calculate_returns P).length = P.length - 1 ∧
      (∀ i, i < P.length - 1 →
        (calculate_returns P).getD i 0 =
          if P.getD i 0 ≠ 0 then (P.getD (i + 1) 0 - P.getD i 0) / P.getD i 0 else 0) := by
  constructor
  · by_cases h : P.length < 2
    · rw [calculate_returns, if_pos h]
      simp
      omega
    · rw [calculate_returns, if_neg h]
      simp
  · intro i hi
    have h2 : ¬ P.length < 2 := by omega
    rw [calculate_returns, if_neg h2, getD_map_range _ _ i hi]

/-- Witness for C1 at the concrete price list `[2, 4, 0, 5]`. -/
theorem calculate_returns_spec_witness :
    (calculate_returns [2, 4, 0, 5]).length = ([2, 4, 0, 5] : List ℚ).length - 1 ∧
      (calculate_returns [2, 4, 0, 5]).getD 2 0 =
        if ([2, 4, 0, 5] : List ℚ).getD 2 0 ≠ 0 then
          (([2, 4, 0, 5] : List ℚ).getD 3 0 - ([2, 4, 0, 5] : List ℚ).getD 2 0) /
            ([2, 4, 0, 5] : List ℚ).getD 2 0
        else 0 :=
  ⟨(calculate_returns_spec [2, 4, 0, 5]).1,
   (calculate_returns_spec [2, 4, 0, 5]).2 2 (by decide)⟩

theorem returns_prod_telescopes (t : List ℚ) :
    ∀ a : ℚ, a ≠ 0 → (∀ x ∈ t, x ≠ 0) →
      ((calculate_returns (a :: t)).map (fun r => 1 + r)).prod = t.getLastD a / a := by
  induction t with
  | nil =>
    intro a ha _
    simp [calculate_returns, div_self ha]
  | cons b t ih =>
    intro a ha hall
    have hb : b ≠ 0 := hall b (by simp)
    have hall' : ∀ x ∈ t, x ≠ 0 := fun x hx => hall x (by simp [hx])
    rw [calculate_returns_cons_cons, List.map_cons, List.prod_cons, ih b hb hall']
    rw [if_pos ha]
    have h1 : 1 + (b - a) / a = b / a := by field_simp
    rw [h1, List.getLastD_cons]
    field_simp
    ring

/-- **C2**: for every price list `P` with at least two entries and no zero
prices, `calculate_total_return P` equals the cumulative product of
`1 + r` over the simple returns, minus one, scaled to percent. -/
theorem total_return_eq_compounded_returns (P : List ℚ)
    (hlen : 2 ≤ P.length) (hnz : ∀ x ∈ P, x ≠ 0) :
    calculate_total_return P =
      (((calculate_returns P).map (fun r => 1 + r)).prod - 1) * 100 := by
  match P, hlen with
  | a :: b :: t, _ =>
    have ha : a ≠ 0 := hnz a (by simp)
    have hall : ∀ x ∈ b :: t, x ≠ 0 := fun x hx => hnz x (List.mem_cons_of_mem a hx)
    rw [returns_prod_telescopes (b :: t) a ha hall]
    have hcond : ¬((a :: b :: t).length < 2 ∨ (a :: b :: t).headD 0 = 0) := by
      push_neg
      refine ⟨by simp only [List.length_cons]; omega, ?_⟩
      rw [List.headD_cons]
      exact ha
    rw [calculate_total_return, if_neg hcond, List.getLastD_cons, List.headD_cons]
    field_simp

/-- Witness for C2 at the concrete price list `[1, 2, 4]`. -/
theorem total_return_eq_compounded_returns_witness :
    calculate_total_return [1, 2, 4] =
      (((calculate_returns [1, 2, 4]).map (fun r => 1 + r)).prod - 1) * 100 :=
  total_return_eq_compounded_returns [1, 2, 4] (by decide) (by decide)

/-! ## Theorems for claim C6 -/

theorem calculate_log_returns_cons_cons (a b : ℚ) (t : List ℚ) :
    calculate_log_returns (a :: b :: t) =
      (if 0 < a then [Real.log ((b : ℝ) / (a : ℝ))] else []) ++
        calculate_log_returns (b :: t) := by
  rw [calculate_log_returns, calculate_log_returns]
  by_cases ht : (b :: t).length < 2
  · have ht0 : t = [] := by
      cases t with
      | nil => rfl
      | cons c t => simp only [List.length_cons] at ht; omega
    subst ht0
    rw [if_neg (by simp), if_pos ht]
    by_cases ha : 0 < a <;>
      simp [List.range_succ, List.filter_cons, ha]
  · rw [if_neg (by simp only [List.length_cons]; omega), if_neg ht]
    have h1 : (a :: b :: t).length - 1 = t.length + 1 := by simp
    have h2 : (b :: t).length - 1 = t.length := by simp
    have hp : ((fun i => decide (0 < (a :: b :: t).getD i 0)) ∘ Nat.succ)
        = fun i => decide (0 < (b :: t).getD i 0) := by
      funext i
      simp [Function.comp, List.getD_cons_succ]
    have hg : ((fun i => Real.log (((a :: b :: t).getD (i + 1) 0 : ℝ) /
          ((a :: b :: t).getD i 0 : ℝ))) ∘ Nat.succ)
        = fun i => Real.log (((b :: t).getD (i + 1) 0 : ℝ) / ((b :: t).getD i 0 : ℝ)) := by
      funext i
      simp [Function.comp, List.getD_cons_succ]
    rw [h1, h2, List.range_succ_eq_map, List.filter_cons, List.filter_map, hp]
    by_cases ha : 0 < a
    · rw [if_pos (by simp [ha]), if_pos ha, List.map_cons, List.map_map, hg]
      simp
    · rw [if_neg (by simp [ha]), if_neg ha, List.map_map, hg]
      simp

/-- **C6**: `calculate_log_returns P` is exactly the ordered list of
`ln(P_(i+1) / P_i)` over the consecutive pairs of `P` whose prior price is
positive; pairs with non-positive prior price are dropped entirely, and any
list with fewer than two entries yields `[]` (the zip with the tail is empty). -/
theorem log_returns_spec (P : List ℚ) :
    calculate_log_returns P =
      (P.zip P.tail).filterMap fun ab =>
        if 0 < ab.1 then some (Real.log ((ab.2 : ℝ) / (ab.1 : ℝ))) else none := by
  induction P with
  | nil => simp [calculate_log_returns]
  | cons a t ih =>
    cases t with
    | nil => simp [calculate_log_returns]
    | cons b t =>
      rw [calculate_log_returns_cons_cons, ih]
      simp only [List.tail_cons]
      rw [List.zip_cons_cons, List.filterMap_cons]
      by_cases ha : 0 < a <;> simp [ha]

/-! ## Theorems for claim C7 -/

theorem ddFold_bounds (xs : List ℚ) :
    ∀ peak mdd : ℚ, 0 < peak → 0 ≤ mdd → mdd ≤ 1 → (∀ x ∈ xs, 0 < x) →
      0 < (xs.foldl ddStep (peak, mdd)).1 ∧
        0 ≤ (xs.foldl ddStep (peak, mdd)).2 ∧ (xs.foldl ddStep (peak, mdd)).2 ≤ 1 := by
  induction xs with
  | nil =>
    intro peak mdd h1 h2 h3 _
    exact ⟨h1, h2, h3⟩
  | cons x xs ih =>
    intro peak mdd hp hm0 hm1 hall
    have hx : 0 < x := hall x (by simp)
    rw [List.foldl_cons]
    have hstep : 0 < (ddStep (peak, mdd) x).1 ∧
        0 ≤ (ddStep (peak, mdd) x).2 ∧ (ddStep (peak, mdd) x).2 ≤ 1 := by
      by_cases hxp : x > peak
      · simp only [ddStep, if_pos hxp]
        rw [sub_self, zero_div, if_neg (by linarith)]
        exact ⟨hx, hm0, hm1⟩
      · simp only [ddStep, if_neg hxp]
        have hxle : x ≤ peak := le_of_not_lt hxp
        have hdd0 : 0 ≤ (peak - x) / peak := div_nonneg (by linarith) (le_of_lt hp)
        have hdd1 : (peak - x) / peak ≤ 1 := by
          rw [div_le_one hp]
          linarith
        refine ⟨hp, ?_⟩
        by_cases hgt : (peak - x) / peak > mdd
        · rw [if_pos hgt]
          exact ⟨hdd0, hdd1⟩
        · rw [if_neg hgt]
          exact ⟨hm0, hm1⟩
    exact ih _ _ hstep.1 hstep.2.1 hstep.2.2 (fun y hy => hall y (by simp [hy]))

/-- **C7 (amended)**: for every price list with positive entries the maximum
drawdown lies between 0 and 100 (percent), and it is 0 whenever the list has
fewer than two entries.  (Positivity is required: see the counterexample.) -/
theorem max_drawdown_bounds (P : List ℚ) (hpos : ∀ x ∈ P, 0 < x) :
    0 ≤ calculate_max_drawdown P ∧ calculate_max_drawdown P ≤ 100 ∧
      (P.length < 2 → calculate_max_drawdown P = 0) := by
  cases P with
  | nil => simp [calculate_max_drawdown]
  | cons a t =>
    by_cases h : (a :: t).length < 2
    · rw [calculate_max_drawdown, if_pos h]
      norm_num
    · rw [calculate_max_drawdown, if_neg h]
      have ha : 0 < a := hpos a (by simp)
      have hb := ddFold_bounds t a 0 ha le_rfl zero_le_one
        (fun x hx => hpos x (by simp [hx]))
      simp only [List.tail_cons, List.headD_cons]
      refine ⟨mul_nonneg hb.2.1 (by norm_num), ?_, fun hc => absurd hc h⟩
      nlinarith [hb.2.2]

/-- **C7 counterexample**: on the price list `[1, -1]` the code returns a
drawdown of 200, violating the claimed upper bound of 100. -/
theorem max_drawdown_gt_100_counterexample :
    calculate_max_drawdown [1, -1] = 200 ∧ ¬ calculate_max_drawdown [1, -1] ≤ 100 := by
  have h : calculate_max_drawdown [1, -1] = 200 := by
    norm_num [calculate_max_drawdown, ddStep]
  refine ⟨h, ?_⟩
  rw [h]
  norm_num

/-- Witness for the amended C7 at the concrete price list `[4, 2, 3]`. -/
theorem max_drawdown_bounds_witness :
    0 ≤ calculate_max_drawdown [4, 2, 3] ∧ calculate_max_drawdown [4, 2, 3] ≤ 100 :=
  ⟨(max_drawdown_bounds [4, 2, 3] (by decide)).1,
   (max_drawdown_bounds [4, 2, 3] (by decide)).2.1⟩

/-! ## Theorem for claim C8 -/

/-- **C8**: `calculate_beta` returns exactly 1 when the lengths mismatch, the
common length is below 2, or the sample variance of the market returns is 0;
otherwise it returns sample covariance over sample market variance. -/
theorem calculate_beta_spec (a m : List ℚ) :
    calculate_beta a m =
      if a.length = m.length ∧ 2 ≤ a.length ∧ sampleVar m ≠ 0 then
        sampleCov a m / sampleVar m
      else 1 := by
  rw [calculate_beta]
  by_cases h1 : a.length ≠ m.length ∨ a.length < 2
  · rw [if_pos h1, if_neg]
    rintro ⟨he, h2len, _⟩
    rcases h1 with h | h
    · exact h he
    · omega
  · rw [if_neg h1]
    push_neg at h1
    by_cases hv : sampleVar m = 0
    · rw [if_pos hv, if_neg]
      rintro ⟨_, _, hv'⟩
      exact hv' hv
    · rw [if_neg hv, if_pos ⟨h1.1, by omega, hv⟩]

/-! ## Theorems for claim C5 -/

/-- **C5 (amended)**: whenever the rolling average loss at the final position
is 0 and the rolling average gain there is defined and nonzero, the current
RSI is exactly 100 and the signal is `"overbought"`. -/
theorem rsi_avg_loss_zero_spec (closes : List ℚ) (period : ℕ) (g : ℚ)
    (hper : 0 < period)
    (hloss : lastRollingMean period (rsiLosses closes) = some 0)
    (hgain : lastRollingMean period (rsiGains closes) = some g)
    (hg : g ≠ 0) :
    calculate_rsi closes period = (some 100, "overbought") := by
  have hne : closes.isEmpty = false := by
    cases hcl : closes with
    | nil =>
      subst hcl
      rw [rsiLosses] at hloss
      simp [lastRollingMean, hper] at hloss
    | cons c t => simp
  rw [calculate_rsi]
  simp only [hne, Bool.false_eq_true, if_false, hgain, hloss]
  norm_num [hg]

/-- Witness for the amended C5: strictly increasing closes `[1, 2, 3]` with
period 2 give RSI exactly 100 and an overbought signal. -/
theorem rsi_avg_loss_zero_spec_witness :
    calculate_rsi [1, 2, 3] 2 = (some 100, "overbought") :=
  rsi_avg_loss_zero_spec [1, 2, 3] 2 1 (by norm_num)
    (by norm_num [lastRollingMean, rsiLosses, List.range_succ])
    (by norm_num [lastRollingMean, rsiGains, List.range_succ])
    (by norm_num)

/-- **C5 counterexample**: on the constant close series (15 copies of 100,
period 14) the rolling average loss at the final position is 0 — the premise
of the claim — yet the current RSI is `NaN` (`0.0/0.0` propagates), not 100,
and the signal is `"neutral"`, not `"overbought"`. -/
theorem rsi_constant_series_counterexample :
    lastRollingMean 14 (rsiLosses (List.replicate 15 (100 : ℚ))) = some 0 ∧
      calculate_rsi (List.replicate 15 (100 : ℚ)) 14 = (none, "neutral") := by
  have hl : lastRollingMean 14 (rsiLosses (List.replicate 15 (100 : ℚ))) = some 0 := by
    norm_num [lastRollingMean, rsiLosses, List.range_succ, List.replicate]
  have hgn : lastRollingMean 14 (rsiGains (List.replicate 15 (100 : ℚ))) = some 0 := by
    norm_num [lastRollingMean, rsiGains, List.range_succ, List.replicate]
  refine ⟨hl, ?_⟩
  rw [calculate_rsi]
  simp only [hl, hgn]
  norm_num [List.replicate]

/-! ## Theorems for claim C10 -/

theorem sorted_headD_le (s : List ℚ) (hs : s.Sorted (fun x y => x ≤ y)) :
    ∀ x ∈ s, s.headD 0 ≤ x := by
  cases s with
  | nil => intro x hx; cases hx
  | cons c t =>
    intro x hx
    rw [List.headD_cons]
    rcases List.mem_cons.mp hx with h | h
    · exact le_of_eq h.symm
    · exact List.rel_of_sorted_cons hs x h

theorem percentile_ge_min (xs : List ℚ) (q : ℚ) (hq0 : 0 ≤ q) (hq1 : q ≤ 100)
    (hne : xs ≠ []) :
    (xs.insertionSort (fun x y => x ≤ y)).headD 0 ≤ percentile xs q := by
  rw [percentile]
  have hlen : (xs.insertionSort (fun x y => x ≤ y)).length = xs.length :=
    List.length_insertionSort _ _
  have hn1 : 1 ≤ xs.length := by
    cases xs with
    | nil => exact absurd rfl hne
    | cons a t => simp
  have hsorted : (xs.insertionSort (fun x y => x ≤ y)).Sorted (fun x y => x ≤ y) :=
    List.sorted_insertionSort _ _
  set s := xs.insertionSort (fun x y => x ≤ y) with hs
  set h : ℚ := ((xs.length : ℚ) - 1) * q / 100 with hh
  have hh0 : 0 ≤ h := by
    apply div_nonneg _ (by norm_num)
    apply mul_nonneg _ hq0
    have : (1 : ℚ) ≤ (xs.length : ℚ) := by exact_mod_cast hn1
    linarith
  have hhub : h ≤ (xs.length : ℚ) - 1 := by
    rw [hh, div_le_iff (by norm_num : (0:ℚ) < 100)]
    have : (1 : ℚ) ≤ (xs.length : ℚ) := by exact_mod_cast hn1
    nlinarith
  set lo : ℕ := Int.toNat ⌊h⌋ with hlo
  have hlocast : (lo : ℚ) ≤ h := by
    rw [hlo]
    have h1 : ((Int.toNat ⌊h⌋ : ℤ) : ℚ) = ((⌊h⌋ : ℤ) : ℚ) := by
      rw [Int.toNat_of_nonneg (Int.floor_nonneg.mpr hh0)]
    push_cast at h1 ⊢
    rw [h1]
    exact Int.floor_le h
  have hfrac : 0 ≤ h - (lo : ℚ) := by linarith
  have hlolt : lo < s.length := by
    rw [hlen]
    have hfl : ⌊h⌋ ≤ (xs.length : ℤ) - 1 := by
      have := Int.floor_le_floor hhub
      rwa [show ((xs.length : ℚ) - 1) = (((xs.length : ℤ) - 1 : ℤ) : ℚ) by push_cast; ring,
        Int.floor_intCast] at this
    omega
  have ha : s.getD lo 0 = s.get ⟨lo, hlolt⟩ := by
    rw [List.getD_eq_getElem _ _ hlolt]
    simp
  have hhead : s.headD 0 ≤ s.getD lo 0 := by
    rw [ha]
    exact sorted_headD_le s hsorted _ (s.get_mem _ _)
  have hab : s.getD lo 0 ≤ s.getD (lo + 1) (s.getD lo 0) := by
    by_cases hlt : lo + 1 < s.length
    · rw [List.getD_eq_getElem _ _ hlt, ha]
      have hrel := hsorted.rel_get_of_le (a := ⟨lo, hlolt⟩) (b := ⟨lo + 1, hlt⟩) (by simp)
      simpa using hrel
    · have hdef : s.getD (lo + 1) (s.getD lo 0) = s.getD lo 0 :=
        List.getD_eq_default s (s.getD lo 0) (show s.length ≤ lo + 1 by omega)
      rw [hdef]
  have : 0 ≤ (h - (lo : ℚ)) * (s.getD (lo + 1) (s.getD lo 0) - s.getD lo 0) :=
    mul_nonneg hfrac (by linarith)
  linarith

/-- **C10**: for every return list with at least two entries and a confidence
level in `[0, 1]`, the tail `{r ∈ R | r ≤ VaR/100}` computed inside
`calculate_cvar` contains a minimum element of `R` (the interpolated
percentile never drops below the sample minimum), hence is non-empty, and
`calculate_cvar` returns the mean of that tail times 100 — the zero fallback
for an empty tail is unreachable. -/
theorem cvar_tail_spec (R : List ℚ) (conf : ℚ)
    (hlen : 2 ≤ R.length) (h0 : 0 ≤ conf) (h1 : conf ≤ 1) :
    (∃ m ∈ R.filter fun r => r ≤ calculate_var R conf / 100, ∀ x ∈ R, m ≤ x) ∧
      (R.filter fun r => r ≤ calculate_var R conf / 100) ≠ [] ∧
      calculate_cvar R conf =
        (R.filter fun r => r ≤ calculate_var R conf / 100).sum /
          (((R.filter fun r => r ≤ calculate_var R conf / 100)).length : ℚ) * 100 := by
  have hnlt : ¬ R.length < 2 := by omega
  have hne : R ≠ [] := by
    cases R with
    | nil => simp at hlen
    | cons a t => simp
  have hq0 : 0 ≤ (1 - conf) * 100 := mul_nonneg (by linarith) (by norm_num)
  have hq1 : (1 - conf) * 100 ≤ 100 := by nlinarith
  have hvar : calculate_var R conf / 100 = percentile R ((1 - conf) * 100) := by
    rw [calculate_var, if_neg hnlt]
    field_simp
  have hmem : (R.insertionSort (fun x y => x ≤ y)).headD 0 ∈ R := by
    cases hs : R.insertionSort (fun x y => x ≤ y) with
    | nil =>
      have hlen' := List.length_insertionSort (fun x y => x ≤ y) R
      rw [hs] at hlen'
      simp at hlen'
      omega
    | cons c t =>
      have hc : c ∈ R.insertionSort (fun x y => x ≤ y) := by
        rw [hs]
        simp
      rw [List.headD_cons]
      exact ((List.perm_insertionSort _ R).mem_iff).mp hc
  have hmle : ∀ x ∈ R, (R.insertionSort (fun x y => x ≤ y)).headD 0 ≤ x := by
    intro x hx
    have hx' : x ∈ R.insertionSort (fun x y => x ≤ y) :=
      ((List.perm_insertionSort _ R).mem_iff).mpr hx
    exact sorted_headD_le _ (List.sorted_insertionSort _ R) x hx'
  have hmthr : (R.insertionSort (fun x y => x ≤ y)).headD 0 ≤ calculate_var R conf / 100 := by
    rw [hvar]
    exact percentile_ge_min R _ hq0 hq1 hne
  have hmf : (R.insertionSort (fun x y => x ≤ y)).headD 0 ∈
      R.filter fun r => r ≤ calculate_var R conf / 100 := by
    rw [List.mem_filter]
    exact ⟨hmem, by simpa using hmthr⟩
  have htail : (R.filter fun r => r ≤ calculate_var R conf / 100) ≠ [] :=
    List.ne_nil_of_mem hmf
  refine ⟨⟨_, hmf, hmle⟩, htail, ?_⟩
  rw [calculate_cvar, if_neg hnlt]
  show (if (R.filter fun r => r ≤ calculate_var R conf / 100) = [] then (0 : ℚ)
      else (R.filter fun r => r ≤ calculate_var R conf / 100).sum /
        (((R.filter fun r => r ≤ calculate_var R conf / 100)).length : ℚ) * 100) = _
  rw [if_neg htail]

/-- Witness for C10 at `R = [1, 2]`, confidence level `0.95`. -/
theorem cvar_tail_spec_witness :
    (([1, 2] : List ℚ).filter fun r => r ≤ calculate_var [1, 2] (19 / 20) / 100) ≠ [] ∧
      calculate_cvar [1, 2] (19 / 20) =
        (([1, 2] : List ℚ).filter fun r => r ≤ calculate_var [1, 2] (19 / 20) / 100).sum /
          (((([1, 2] : List ℚ).filter fun r =>
            r ≤ calculate_var [1, 2] (19 / 20) / 100)).length : ℚ) * 100 :=
  ⟨(cvar_tail_spec [1, 2] (19 / 20) (by norm_num) (by norm_num) (by norm_num)).2.1,
   (cvar_tail_spec [1, 2] (19 / 20) (by norm_num) (by norm_num) (by norm_num)).2.2⟩

/-! ## Theorems for claim C4 -/

theorem lookup_mem_of_eq_some (l : List (String × ℚ)) (s : String) (v : ℚ)
    (h : l.lookup s = some v) : (s, v) ∈ l := by
  induction l with
  | nil => simp [List.lookup] at h
  | cons kv t ih =>
    obtain ⟨k, w⟩ := kv
    by_cases hk : s = k
    · subst hk
      simp only [List.lookup_cons, beq_self_eq_true] at h
      simp at h
      simp [h]
    · simp only [List.lookup_cons, beq_false_of_ne hk] at h
      exact List.mem_cons_of_mem _ (ih h)

theorem lookup_none_of_not_mem_keys (l : List (String × ℚ)) (s : String)
    (h : s ∉ l.map Prod.fst) : l.lookup s = none := by
  induction l with
  | nil => rfl
  | cons kv t ih =>
    obtain ⟨k, w⟩ := kv
    have hs : s ≠ k := by
      intro hc
      exact h (by simp [hc])
    simp only [List.lookup_cons, beq_false_of_ne hs]
    exact ih (fun hc => h (by simp at hc ⊢; tauto))

theorem totalValue_nonneg (positions : List Position) (prices : List (String × ℚ))
    (hq : ∀ p ∈ positions, 0 < p.quantity ∧ 0 < p.avg_cost)
    (hp : ∀ pr ∈ prices, 0 < pr.2) :
    0 ≤ totalValue positions prices := by
  apply List.sum_nonneg
  intro x hx
  rw [List.mem_map] at hx
  obtain ⟨p, hpmem, rfl⟩ := hx
  cases hlk : prices.lookup p.symbol with
  | some pr =>
    have hm : (p.symbol, pr) ∈ prices := lookup_mem_of_eq_some _ _ _ hlk
    have hpr : 0 < pr := hp _ hm
    simp only [positionValue, hlk]
    exact le_of_lt (mul_pos (hq p hpmem).1 hpr)
  | none =>
    simp only [positionValue, hlk]
    exact le_of_lt (mul_pos (hq p hpmem).1 (hq p hpmem).2)

/-- **C4 (amended)**: under the validated request (target allocations summing
to 100±1, positive quantities/costs/quotes, dict-like distinct keys), a trade
is generated for a symbol exactly when the absolute difference between its
target value and its current value exceeds 1% of the total portfolio value
AND a positive current price is available for the symbol; in particular a
difference at or below the dead band never generates a trade. -/
theorem rebalance_trade_iff (positions : List Position) (targets : List (String × ℚ))
    (prices : List (String × ℚ)) (s : String)
    (hsum : 99 ≤ (targets.map Prod.snd).sum ∧ (targets.map Prod.snd).sum ≤ 101)
    (hq : ∀ p ∈ positions, 0 < p.quantity ∧ 0 < p.avg_cost)
    (hp : ∀ pr ∈ prices, 0 < pr.2)
    (hnodup : (positions.map Position.symbol).Nodup)
    (hnodupT : (targets.map Prod.fst).Nodup) :
    (∃ t ∈ rebalancingTrades positions targets prices, t.symbol = s) ↔
      (|targetValueOf positions targets prices s - currentValueOf positions prices s| >
          totalValue positions prices * (1 / 100) ∧
        0 < (prices.lookup s).getD 0) := by
  constructor
  · rintro ⟨t, ht, rfl⟩
    rw [rebalancingTrades, List.mem_filterMap] at ht
    obtain ⟨a, ha, hf⟩ := ht
    by_cases hcond : |targetValueOf positions targets prices a -
          currentValueOf positions prices a| > totalValue positions prices * (1 / 100) ∧
        0 < (prices.lookup a).getD 0
    · rw [if_pos hcond] at hf
      obtain rfl := Option.some.inj hf
      exact hcond
    · rw [if_neg hcond] at hf
      cases hf
  · intro hrhs
    have hmem : s ∈ rebalanceSymbols positions targets := by
      by_contra hns
      rw [rebalanceSymbols, List.mem_dedup, List.mem_append] at hns
      push_neg at hns
      have hcv : currentValueOf positions prices s = 0 := by
        rw [currentValueOf, lookup_none_of_not_mem_keys]
        · rfl
        · rw [List.map_map]
          simpa [Function.comp] using hns.1
      have htv : targetValueOf positions targets prices s = 0 := by
        rw [targetValueOf, lookup_none_of_not_mem_keys _ _ hns.2]
        simp
      have htot := totalValue_nonneg positions prices hq hp
      rw [hcv, htv] at hrhs
      have := hrhs.1
      simp at this
      nlinarith
    refine ⟨⟨s,
      if 0 < targetValueOf positions targets prices s -
          currentValueOf positions prices s then "buy" else "sell",
      |(targetValueOf positions targets prices s -
          currentValueOf positions prices s) / (prices.lookup s).getD 0|,
      |targetValueOf positions targets prices s -
          currentValueOf positions prices s|,
      (prices.lookup s).getD 0⟩, ?_, rfl⟩
    rw [rebalancingTrades, List.mem_filterMap]
    exact ⟨s, hmem, by rw [if_pos hrhs]⟩

/-- **C4 counterexample**: positions entirely in `"A"` (quantity 1, price
100), targets `A: 60%, B: 40%` summing to 100.  For `"B"` the difference
`|40 - 0| = 40` exceeds 1% of the total (1), yet no trade is generated for
`"B"` because no quote for `"B"` was fetched — refuting "a trade is generated
exactly when the difference exceeds the threshold". -/
theorem rebalance_missing_price_counterexample :
    (([("A", (60 : ℚ)), ("B", 40)].map Prod.snd).sum = 100 ∧
      |targetValueOf [⟨"A", 1, 100⟩] [("A", 60), ("B", 40)] [("A", 100)] "B" -
          currentValueOf [⟨"A", 1, 100⟩] [("A", 100)] "B"| >
        totalValue [⟨"A", 1, 100⟩] [("A", 100)] * (1 / 100)) ∧
      ∀ t ∈ rebalancingTrades [⟨"A", 1, 100⟩] [("A", 60), ("B", 40)] [("A", 100)],
        t.symbol ≠ "B" := by
  have e1 : totalValue [⟨"A", 1, 100⟩] [("A", 100)] = 100 := by
    norm_num [totalValue, positionValue, List.lookup,
      show ("A" == "A") = true from rfl]
  have e2 : currentValueOf [⟨"A", 1, 100⟩] [("A", 100)] "B" = 0 := by
    norm_num [currentValueOf, positionValue, List.lookup,
      show ("B" == "A") = false from rfl]
  have e3 : targetValueOf [⟨"A", 1, 100⟩] [("A", 60), ("B", 40)] [("A", 100)] "B" = 40 := by
    norm_num [targetValueOf, List.lookup, e1,
      show ("B" == "A") = false from rfl, show ("B" == "B") = true from rfl]
  have e4 : currentValueOf [⟨"A", 1, 100⟩] [("A", 100)] "A" = 100 := by
    norm_num [currentValueOf, positionValue, List.lookup,
      show ("A" == "A") = true from rfl]
  have e5 : targetValueOf [⟨"A", 1, 100⟩] [("A", 60), ("B", 40)] [("A", 100)] "A" = 60 := by
    norm_num [targetValueOf, List.lookup, e1, show ("A" == "A") = true from rfl]
  refine ⟨⟨by norm_num, ?_⟩, ?_⟩
  · rw [e1, e2, e3]
    norm_num
  · intro t ht
    rw [rebalancingTrades] at ht
    have hsym : rebalanceSymbols [⟨"A", 1, 100⟩] [("A", (60 : ℚ)), ("B", 40)] = ["A", "B"] := by
      simp [rebalanceSymbols, List.dedup_cons_of_mem, List.dedup_cons_of_not_mem]
    rw [hsym] at ht
    simp only [List.filterMap_cons, List.filterMap_nil] at ht
    rw [e1, e2, e3, e4, e5] at ht
    have hlkB : (([("A", (100 : ℚ))]).lookup "B").getD 0 = 0 := by
      norm_num [List.lookup, show ("B" == "A") = false from rfl]
    have hlkA : (([("A", (100 : ℚ))]).lookup "A").getD 0 = 100 := by
      norm_num [List.lookup, show ("A" == "A") = true from rfl]
    rw [hlkA, hlkB] at ht
    rw [if_pos (by norm_num), if_neg (by norm_num)] at ht
    simp at ht
    rw [ht]
    simp

/-- Witness for the amended C4: in the same scenario a trade for `"A"`
(whose difference 40 exceeds the 1% dead band and whose price is available
and positive) is generated. -/
theorem rebalance_trade_iff_witness :
    rebalancingTrades [⟨"A", 1, 100⟩] [("A", 60), ("B", 40)] [("A", 100)] ≠ [] := by
  have e1 : totalValue [⟨"A", 1, 100⟩] [("A", 100)] = 100 := by
    norm_num [totalValue, positionValue, List.lookup,
      show ("A" == "A") = true from rfl]
  have e4 : currentValueOf [⟨"A", 1, 100⟩] [("A", 100)] "A" = 100 := by
    norm_num [currentValueOf, positionValue, List.lookup,
      show ("A" == "A") = true from rfl]
  have e5 : targetValueOf [⟨"A", 1, 100⟩] [("A", 60), ("B", 40)] [("A", 100)] "A" = 60 := by
    norm_num [targetValueOf, List.lookup, e1, show ("A" == "A") = true from rfl]
  have hlkA : (([("A", (100 : ℚ))]).lookup "A").getD 0 = 100 := by
    norm_num [List.lookup, show ("A" == "A") = true from rfl]
  obtain ⟨t, ht, -⟩ :=
    (rebalance_trade_iff [⟨"A", 1, 100⟩] [("A", 60), ("B", 40)] [("A", 100)] "A"
      ⟨by norm_num, by norm_num⟩ (by decide) (by decide) (by decide) (by decide)).mpr
      ⟨by rw [e1, e4, e5]; norm_num, by rw [hlkA]; norm_num⟩
  exact List.ne_nil_of_mem ht

/-! ## Theorems for claims C3 and C9 -/

theorem devSq_nonneg (xs : List ℚ) : 0 ≤ devSq xs := by
  apply List.sum_nonneg
  intro x hx
  rw [List.mem_map] at hx
  obtain ⟨y, -, rfl⟩ := hx
  positivity

theorem devProd_symm (xs ys : List ℚ) : devProd ys xs = devProd xs ys := by
  rw [devProd, devProd, ← List.zip_swap xs ys, List.map_map]
  refine congrArg List.sum ?_
  apply List.map_congr_left
  intro p hp
  simp only [Function.comp_apply, Prod.fst_swap, Prod.snd_swap]
  ring

theorem corrEntry_symm (xs ys : List ℚ) : corrEntry ys xs = corrEntry xs ys := by
  rw [corrEntry, corrEntry, devProd_symm]
  by_cases h1 : devSq xs = 0 ∨ devSq ys = 0
  · rw [if_pos (Or.symm h1), if_pos h1]
  · rw [if_neg (fun hc => h1 (Or.symm hc)), if_neg h1, mul_comm ((devSq ys : ℝ)) ((devSq xs : ℝ))]

theorem zip_self_eq_map (l : List ℚ) : l.zip l = l.map fun a => (a, a) := by
  induction l with
  | nil => rfl
  | cons a t ih => rw [List.zip_cons_cons, List.map_cons, ih]

theorem devProd_self (xs : List ℚ) : devProd xs xs = devSq xs := by
  rw [devProd, devSq, zip_self_eq_map, List.map_map]
  refine congrArg List.sum ?_
  apply List.map_congr_left
  intro a ha
  simp only [Function.comp_apply]
  ring

theorem corrEntry_self (xs : List ℚ) (h : devSq xs ≠ 0) : corrEntry xs xs = some 1 := by
  rw [corrEntry, if_neg (by tauto), devProd_self]
  have h0 : (0 : ℝ) ≤ (devSq xs : ℝ) := by exact_mod_cast devSq_nonneg xs
  rw [Real.sqrt_mul_self h0]
  have hne : (devSq xs : ℝ) ≠ 0 := by exact_mod_cast h
  rw [div_self hne]

theorem sum_map_eq_sum_range (l : List ℚ) (f : ℚ → ℚ) :
    (l.map f).sum = ∑ i ∈ Finset.range l.length, f (l.getD i 0) := by
  induction l with
  | nil => simp
  | cons a t ih =>
    rw [List.map_cons, List.sum_cons, ih, List.length_cons, Finset.sum_range_succ']
    simp only [List.getD_cons_succ, List.getD_cons_zero]
    exact (add_comm _ _)

theorem sum_zip_eq_sum_range (xs : List ℚ) (f : ℚ → ℚ → ℚ) :
    ∀ ys : List ℚ, xs.length = ys.length →
      ((xs.zip ys).map fun p => f p.1 p.2).sum =
        ∑ i ∈ Finset.range xs.length, f (xs.getD i 0) (ys.getD i 0) := by
  induction xs with
  | nil =>
    intro ys h
    simp
  | cons a t ih =>
    intro ys h
    cases ys with
    | nil => simp at h
    | cons b u =>
      rw [List.zip_cons_cons, List.map_cons, List.sum_cons, ih u (by simpa using h),
        List.length_cons, Finset.sum_range_succ']
      simp only [List.getD_cons_succ, List.getD_cons_zero]
      exact (add_comm _ _)

theorem devProd_sq_le (xs ys : List ℚ) (h : xs.length = ys.length) :
    devProd xs ys ^ 2 ≤ devSq xs * devSq ys := by
  rw [devProd, devSq, devSq,
    sum_zip_eq_sum_range xs (fun x y => (x - colMean xs) * (y - colMean ys)) ys h,
    sum_map_eq_sum_range xs (fun x => (x - colMean xs) ^ 2),
    sum_map_eq_sum_range ys (fun y => (y - colMean ys) ^ 2), h]
  exact Finset.sum_mul_sq_le_sq_mul_sq _ _ _

theorem corrEntry_bounds (xs ys : List ℚ) (h : xs.length = ys.length) (x : ℝ)
    (hx : corrEntry xs ys = some x) : -1 ≤ x ∧ x ≤ 1 := by
  rw [corrEntry] at hx
  by_cases hc : devSq xs = 0 ∨ devSq ys = 0
  · rw [if_pos hc] at hx
    cases hx
  · rw [if_neg hc] at hx
    push_neg at hc
    have hA : (0 : ℝ) < (devSq xs : ℝ) := by
      have h0 : (0 : ℝ) ≤ (devSq xs : ℝ) := by exact_mod_cast devSq_nonneg xs
      have hne : (devSq xs : ℝ) ≠ 0 := by exact_mod_cast hc.1
      exact h0.lt_of_ne (Ne.symm hne)
    have hB : (0 : ℝ) < (devSq ys : ℝ) := by
      have h0 : (0 : ℝ) ≤ (devSq ys : ℝ) := by exact_mod_cast devSq_nonneg ys
      have hne : (devSq ys : ℝ) ≠ 0 := by exact_mod_cast hc.2
      exact h0.lt_of_ne (Ne.symm hne)
    have hP2 : ((devProd xs ys : ℝ)) ^ 2 ≤ (devSq xs : ℝ) * (devSq ys : ℝ) := by
      exact_mod_cast devProd_sq_le xs ys h
    obtain rfl := Option.some.inj hx
    have hsq : 0 < Real.sqrt ((devSq xs : ℝ) * (devSq ys : ℝ)) :=
      Real.sqrt_pos.mpr (mul_pos hA hB)
    have hPle : |(devProd xs ys : ℝ)| ≤ Real.sqrt ((devSq xs : ℝ) * (devSq ys : ℝ)) := by
      rw [← Real.sqrt_sq_eq_abs]
      exact Real.sqrt_le_sqrt hP2
    have habs : |(devProd xs ys : ℝ) / Real.sqrt ((devSq xs : ℝ) * (devSq ys : ℝ))| ≤ 1 := by
      rw [abs_div, abs_of_pos hsq]
      exact div_le_one_of_le₀ hPle (le_of_lt hsq)
    exact abs_le.mp habs

theorem pctChangeCol_length (p : List ℚ) : (pctChangeCol p).length = p.length - 1 := by
  simp [pctChangeCol]

theorem correlation_matrix_else (price_data : List (String × List ℚ)) (n : ℕ)
    (h2 : 2 ≤ price_data.length) (hlen : ∀ c ∈ price_data, c.2.length = n) (hn : 2 ≤ n) :
    calculate_correlation_matrix price_data =
      (price_data.map fun c1 => price_data.map fun c2 =>
        ((c1.1, c2.1), corrEntry (pctChangeCol c1.2) (pctChangeCol c2.2))).join := by
  rw [calculate_correlation_matrix, if_neg (by omega)]
  have hall : ¬ ((price_data.all fun c => (pctChangeCol c.2).isEmpty) = true) := by
    cases price_data with
    | nil => simp at h2
    | cons c0 t =>
      intro hcon
      simp only [List.all_cons, Bool.and_eq_true] at hcon
      have h1 : (pctChangeCol c0.2).isEmpty = true := hcon.1
      rw [List.isEmpty_iff] at h1
      have hl := pctChangeCol_length c0.2
      rw [h1] at hl
      have hc0 := hlen c0 (by simp)
      simp at hl
      omega
  rw [if_neg hall]

/-- **C3 (amended)**: over inputs of at least two equal-length nonzero-price
columns with distinct symbols and a non-empty aligned return frame, the
correlation matrix is symmetric (the entry for `(b, a)` carries the same
value as the entry for `(a, b)`); the diagonal entry of every column whose
return series has nonzero variance is exactly 1 (a zero-variance column
yields an undefined `NaN` diagonal instead — see the counterexample); and
every defined entry lies in `[-1, 1]`. -/
theorem correlation_matrix_props (price_data : List (String × List ℚ)) (n : ℕ)
    (h2 : 2 ≤ price_data.length)
    (hkeys : (price_data.map Prod.fst).Nodup)
    (hlen : ∀ c ∈ price_data, c.2.length = n)
    (hn : 2 ≤ n)
    (hnz : ∀ c ∈ price_data, ∀ x ∈ c.2, x ≠ 0) :
    (∀ e ∈ calculate_correlation_matrix price_data,
        ((e.1.2, e.1.1), e.2) ∈ calculate_correlation_matrix price_data) ∧
      (∀ c ∈ price_data, devSq (pctChangeCol c.2) ≠ 0 →
        ((c.1, c.1), some (1 : ℝ)) ∈ calculate_correlation_matrix price_data) ∧
      (∀ e ∈ calculate_correlation_matrix price_data, ∀ x : ℝ, e.2 = some x →
        -1 ≤ x ∧ x ≤ 1) := by
  rw [correlation_matrix_else price_data n h2 hlen hn]
  have hmem : ∀ e : (String × String) × Option ℝ,
      e ∈ (price_data.map fun c1 => price_data.map fun c2 =>
          ((c1.1, c2.1), corrEntry (pctChangeCol c1.2) (pctChangeCol c2.2))).join ↔
        ∃ c1 ∈ price_data, ∃ c2 ∈ price_data,
          e = ((c1.1, c2.1), corrEntry (pctChangeCol c1.2) (pctChangeCol c2.2)) := by
    intro e
    rw [List.mem_join]
    constructor
    · rintro ⟨l, hl, hel⟩
      rw [List.mem_map] at hl
      obtain ⟨c1, hc1, rfl⟩ := hl
      rw [List.mem_map] at hel
      obtain ⟨c2, hc2, rfl⟩ := hel
      exact ⟨c1, hc1, c2, hc2, rfl⟩
    · rintro ⟨c1, hc1, c2, hc2, rfl⟩
      exact ⟨_, List.mem_map_of_mem _ hc1, List.mem_map_of_mem _ hc2⟩
  refine ⟨?_, ?_, ?_⟩
  · intro e he
    rw [hmem] at he
    obtain ⟨c1, hc1, c2, hc2, rfl⟩ := he
    rw [hmem]
    refine ⟨c2, hc2, c1, hc1, ?_⟩
    rw [Prod.mk.injEq]
    exact ⟨rfl, corrEntry_symm (pctChangeCol c2.2) (pctChangeCol c1.2)⟩
  · intro c hc hvar
    rw [hmem]
    exact ⟨c, hc, c, hc, by rw [corrEntry_self _ hvar]⟩
  · intro e he x hx
    rw [hmem] at he
    obtain ⟨c1, hc1, c2, hc2, rfl⟩ := he
    refine corrEntry_bounds (pctChangeCol c1.2) (pctChangeCol c2.2) ?_ x hx
    rw [pctChangeCol_length, pctChangeCol_length, hlen c1 hc1, hlen c2 hc2]

/-- **C3 counterexample**: the input `{a: [1, 2, 4], b: [1, 2, 3]}` has two
symbols and a non-empty aligned return frame, yet the diagonal entry for
`a` is `NaN` (`none`) rather than 1.0: `a`'s return column `[1, 1]` is
constant, so pandas `nancorr` divides by a zero standard deviation even on
the diagonal. -/
theorem correlation_diag_nan_counterexample :
    calculate_correlation_matrix [("a", [1, 2, 4]), ("b", [1, 2, 3])] ≠ [] ∧
      (("a", "a"), (none : Option ℝ)) ∈
        calculate_correlation_matrix [("a", [1, 2, 4]), ("b", [1, 2, 3])] ∧
      (("a", "a"), some (1 : ℝ)) ∉
        calculate_correlation_matrix [("a", [1, 2, 4]), ("b", [1, 2, 3])] := by
  have hra : pctChangeCol [1, 2, 4] = [1, 1] := by
    norm_num [pctChangeCol, List.range_succ]
  have hrb : pctChangeCol [1, 2, 3] = [1, 1 / 2] := by
    norm_num [pctChangeCol, List.range_succ]
  have hda : devSq [(1 : ℚ), 1] = 0 := by
    norm_num [devSq, colMean]
  have hM : calculate_correlation_matrix [("a", [1, 2, 4]), ("b", [1, 2, 3])] =
      [(("a", "a"), none), (("a", "b"), none), (("b", "a"), none),
        (("b", "b"), corrEntry [1, 1 / 2] [1, 1 / 2])] := by
    rw [correlation_matrix_else _ 3 (by norm_num) (by decide) (by norm_num)]
    simp only [List.map_cons, List.map_nil, List.join]
    rw [hra, hrb]
    have e1 : corrEntry [(1 : ℚ), 1] [1, 1] = none := by
      rw [corrEntry, if_pos (Or.inl hda)]
    have e2 : corrEntry [(1 : ℚ), 1] [1, 1 / 2] = none := by
      rw [corrEntry, if_pos (Or.inl hda)]
    have e3 : corrEntry [(1 : ℚ), 1 / 2] [1, 1] = none := by
      rw [corrEntry, if_pos (Or.inr hda)]
    rw [e1, e2, e3]
    simp
  refine ⟨by rw [hM]; simp, by rw [hM]; simp, ?_⟩
  rw [hM]
  intro hmem
  simp only [List.mem_cons, List.not_mem_nil, or_false, Prod.mk.injEq] at hmem
  rcases hmem with h | h | h | h
  · exact Option.some_ne_none 1 h.2
  · exact absurd h.1.2 (by simp)
  · exact absurd h.1.1 (by simp)
  · exact absurd h.1.1 (by simp)

/-- Witness for the amended C3 at the two-column input
`{a: [1, 2, 3], b: [2, 1, 2]}`: the diagonal entry for `a` is exactly 1. -/
theorem correlation_matrix_props_witness :
    (("a", "a"), some (1 : ℝ)) ∈
      calculate_correlation_matrix [("a", [1, 2, 3]), ("b", [2, 1, 2])] :=
  (correlation_matrix_props [("a", [1, 2, 3]), ("b", [2, 1, 2])] 3
      (by norm_num) (by decide) (by decide) (by norm_num) (by decide)).2.1
    ("a", [1, 2, 3]) (by simp)
    (by norm_num [pctChangeCol, List.range_succ, devSq, colMean])

/-- **C9**: `calculate_correlation_matrix` returns the empty result when
fewer than 2 symbols are supplied, and likewise when the aligned return
frame is empty — with equal-length columns this happens exactly when the
common length is at most 1.  Both paths return `{}` before any computation
that could raise. -/
theorem correlation_matrix_empty_spec (price_data : List (String × List ℚ)) (n : ℕ) :
    (price_data.length < 2 → calculate_correlation_matrix price_data = []) ∧
      ((∀ c ∈ price_data, c.2.length = n) → n ≤ 1 →
        calculate_correlation_matrix price_data = []) := by
  constructor
  · intro h
    rw [calculate_correlation_matrix, if_pos h]
  · intro hlen hn
    rw [calculate_correlation_matrix]
    by_cases h : price_data.length < 2
    · rw [if_pos h]
    · rw [if_neg h, if_pos ?hall]
      case hall =>
        rw [List.all_eq_true]
        intro c hc
        have hl := pctChangeCol_length c.2
        rw [hlen c hc] at hl
        have : (pctChangeCol c.2).length = 0 := by omega
        rw [List.length_eq_zero] at this
        rw [this]
        rfl

/-- Witness for C9: a single-symbol input and a two-symbol input with
length-1 columns both produce the empty result. -/
theorem correlation_matrix_empty_spec_witness :
    calculate_correlation_matrix [("a", [1, 2])] = [] ∧
      calculate_correlation_matrix [("x", [5]), ("y", [7])] = [] :=
  ⟨(correlation_matrix_empty_spec [("a", [1, 2])] 0).1 (by norm_num),
   (correlation_matrix_empty_spec [("x", [5]), ("y", [7])] 1).2
     (by decide) (by norm_num)⟩
